import Mathlib

/-!
Verification of the decay-chain engine of the `radioactivedecay` package.

The source file `radioactivedecay/radionuclide.py` (the `Radionuclide`
class) is embedded directly.  The collaborating modules (`utils` with the
nuclide-identifier canonicalizer and the time-unit converter, `decaydata`
with the `DecayData` container, and the `Inventory` class with the
Bateman decay-chain solver) are not part of the provided source tree, so
they are modelled from the specification, as marked on each definition.

Numeric conventions: Python floats are modelled as real numbers; the
IEEE-754 behaviour of dividing a nonzero value by zero (the decay
constant of a stable nuclide is a numpy float64, so the division yields
a signed infinity rather than raising) is captured by the `FVal` type.
-/

/-- Result of a floating-point computation: a finite real, a signed
infinity, or NaN.  Division of a positive numerator by zero gives
`posInf`, matching IEEE-754 semantics of numpy float64 scalars. -/
inductive FVal where
  | fin (x : ℝ) : FVal
  | posInf : FVal
  | negInf : FVal
  | nan : FVal

/-- IEEE-754 style division of two finite reals, as performed on numpy
float64 scalars: dividing a nonzero value by zero yields a signed
infinity, and 0/0 yields NaN. -/
noncomputable def npDiv (a b : ℝ) : FVal :=
  if b = 0 then
    if 0 < a then FVal.posInf
    else if a < 0 then FVal.negInf
    else FVal.nan
  else FVal.fin (a / b)

/-! ## Nuclide identifier canonicalization (spec §4.1)

Modelled from the spec: the canonicalizer `parse_radionuclide` lives in
`radioactivedecay/utils.py`, which is not part of the provided source;
the definitions below follow §4.1 of the specification: accepted raw
forms are `Symbol-Mass[Suffix]`, `SymbolMass[Suffix]` and
`Mass[Suffix]Symbol` with a 1-2 letter case-sensitive element symbol,
a 1-3 digit mass number and an optional metastable suffix from
the set containing the letters m and n; output is normalized to
`Symbol-Mass[Suffix]` and must be present in the dataset nuclide list. -/

/-- A metastable-state suffix character (spec §4.1: a known small set). -/
def isSuffixChar (c : Char) : Bool :=
  c = 'm' || c = 'n'

/-- Shape of an element symbol: one or two letters, first upper case,
second lower case (spec §4.1: case-sensitive element symbol, 1-2 letters). -/
def symbolShape (s : List Char) : Bool :=
  match s with
  | [a] => a.isUpper
  | [a, b] => a.isUpper && b.isLower
  | _ => false

/-- Shape of a mass number: one to three digits (spec §4.1). -/
def massShape (m : List Char) : Bool :=
  decide (1 ≤ m.length) && decide (m.length ≤ 3) && m.all Char.isDigit

/-- Shape of a metastable suffix: empty or one suffix character. -/
def suffixShape (s : List Char) : Bool :=
  match s with
  | [] => true
  | [c] => isSuffixChar c
  | _ => false

/-- Modelled from the spec: split a raw identifier character list into
candidate (symbol, mass, suffix) parts according to the three accepted
layouts of §4.1.  A hyphen selects the canonical `Symbol-Mass[Suffix]`
layout; a leading digit selects `Mass[Suffix]Symbol`; a leading letter
selects `SymbolMass[Suffix]`. -/
def splitParts (cs : List Char) : Option (List Char × List Char × List Char) :=
  match cs with
  | [] => none
  | c :: _ =>
    if cs.contains '-' then
      let sym := cs.takeWhile (fun x => x ≠ '-')
      let rest := (cs.dropWhile (fun x => x ≠ '-')).drop 1
      some (sym, rest.takeWhile Char.isDigit, rest.dropWhile Char.isDigit)
    else if c.isDigit then
      let mass := cs.takeWhile Char.isDigit
      let rest := cs.dropWhile Char.isDigit
      match rest with
      | [] => some ([], mass, [])
      | r :: rs => if isSuffixChar r then some (rs, mass, [r]) else some (rest, mass, [])
    else
      let sym := cs.takeWhile Char.isAlpha
      let rest := cs.dropWhile Char.isAlpha
      some (sym, rest.takeWhile Char.isDigit, rest.dropWhile Char.isDigit)

/-- Modelled from the spec: `parse_radionuclide` of §4.1.  Canonicalizes
a raw nuclide identifier against a dataset nuclide list, producing the
`Symbol-Mass[Suffix]` form, or an `InvalidIdentifier`-style error when
the string cannot be parsed or the canonical form is absent from the
dataset. -/
def parseRadionuclide (raw : String) (nuclides : List String) (ds : String) :
    Except String String :=
  match splitParts raw.toList with
  | none => Except.error (raw ++ " is not a valid radionuclide in " ++ ds ++ " dataset")
  | some (sym, mass, suf) =>
    if symbolShape sym && massShape mass && suffixShape suf then
      if String.mk (sym ++ '-' :: (mass ++ suf)) ∈ nuclides then
        Except.ok (String.mk (sym ++ '-' :: (mass ++ suf)))
      else Except.error (raw ++ " is not a valid radionuclide in " ++ ds ++ " dataset")
    else Except.error (raw ++ " is not a valid radionuclide in " ++ ds ++ " dataset")

/-! ## Time-unit conversion (spec §4.2)

Modelled from the spec: `time_unit_conv` lives in
`radioactivedecay/utils.py`, which is not part of the provided source;
the definitions below follow §4.2: a fixed seconds-per-unit constant per
recognized token, two-hop conversion through seconds, `InvalidUnit`
failure on an unrecognized token on either side. -/

/-- Modelled from the spec: seconds-per-unit table of §4.2.  Year-scale
units all derive from `yearDays * 86400` seconds per year.  Returns
`none` for an unrecognized token. -/
noncomputable def unitSeconds (u : String) (yearDays : ℝ) : Option ℝ :=
  match u with
  | "ns" => some (1 / 1000000000)
  | "us" => some (1 / 1000000)
  | "ms" => some (1 / 1000)
  | "s" | "sec" | "second" | "seconds" => some 1
  | "m" | "min" => some 60
  | "h" | "hr" | "hour" | "hours" => some 3600
  | "d" | "day" | "days" => some 86400
  | "y" | "yr" | "year" | "years" => some (yearDays * 86400)
  | "ky" => some (yearDays * 86400 * 1000)
  | "My" => some (yearDays * 86400 * 1000000)
  | "Gy" => some (yearDays * 86400 * 1000000000)
  | "Ty" => some (yearDays * 86400 * 1000000000000)
  | "Py" => some (yearDays * 86400 * 1000000000000000)
  | _ => none

/-- Modelled from the spec: `time_unit_conv` of §4.2.  Converts `v` from
`uf` to seconds by multiplying by the from-unit constant, then to `ut`
by dividing by the to-unit constant; fails with an `InvalidUnit`-style
error when either token is unrecognized. -/
noncomputable def timeUnitConv (v : ℝ) (uf ut : String) (yearDays : ℝ) :
    Except String ℝ :=
  match unitSeconds uf yearDays with
  | none => Except.error (uf ++ " is not a valid unit")
  | some a =>
    match unitSeconds ut yearDays with
    | none => Except.error (ut ++ " is not a valid unit")
    | some b => Except.ok (v * a / b)

/-! ## Decay dataset (spec §3)

Modelled from the spec: the `DecayData` container lives in
`radioactivedecay/decaydata.py`, which is not part of the provided
source; the structure below follows §3 of the specification and the
attribute accesses made by `radionuclide.py` (`data.radionuclides`,
`data.radionuclide_dict`, `data.decay_consts`, `data.prog_bfs_modes`,
`data.dataset`, `data.ln2`, `data.year_conv`).  The dense index of a
canonical identifier (`radionuclide_dict`) is modelled as the position
in the ordered `radionuclides` list. -/
structure DecayData where
  dataset : String
  radionuclides : List String
  decay_consts : List ℝ
  prog_bfs_modes : List (List (String × ℝ × String))
  year_conv : ℝ
  ln2 : ℝ

/-- Decay constant of a nuclide: the dataset entry at the nuclide's
dense index (`data.decay_consts[data.radionuclide_dict[name]]`). -/
noncomputable def decayConstOf (d : DecayData) (name : String) : ℝ :=
  d.decay_consts.getD (d.radionuclides.indexOf name) 0

/-- Progeny map entry of a nuclide: the ordered list of (progeny
identifier, branching fraction, decay mode) triples at the nuclide's
dense index (`data.prog_bfs_modes[data.radionuclide_dict[name]]`). -/
noncomputable def progenyEntriesOf (d : DecayData) (name : String) :
    List (String × ℝ × String) :=
  d.prog_bfs_modes.getD (d.radionuclides.indexOf name) []

/-! ## The Radionuclide class (`radioactivedecay/radionuclide.py`) -/

/-- A `Radionuclide` instance: the attributes set by
`Radionuclide.__init__`. -/
structure Radionuclide where
  radionuclide : String
  decay_constant : ℝ
  prog_bf_mode : List (String × ℝ × String)
  data : DecayData

/-- `Radionuclide.__init__`: canonicalize the constructor argument
against the dataset, then bind the decay constant and progeny map at
the canonical identifier's dense index.  A canonicalization failure
propagates before any attribute is set, modelled by the error branch
producing no `Radionuclide` value. -/
noncomputable def mkRadionuclide (raw : String) (d : DecayData) :
    Except String Radionuclide :=
  match parseRadionuclide raw d.radionuclides d.dataset with
  | Except.error e => Except.error e
  | Except.ok name =>
    Except.ok
      { radionuclide := name
        decay_constant := decayConstOf d name
        prog_bf_mode := progenyEntriesOf d name
        data := d }

/-- `Radionuclide.half_life`: `conv * ln2 / decay_constant` where
`conv` is `1.0` when the requested unit is `"s"` and otherwise the
conversion of `1.0` from seconds into the requested unit.  The division
is numpy float64 division (`npDiv`); a converter failure on an unknown
unit propagates. -/
noncomputable def halfLifeOf (nuc : Radionuclide) (units : String) :
    Except String FVal :=
  if units = "s" then
    Except.ok (npDiv (1 * nuc.data.ln2) nuc.decay_constant)
  else
    match timeUnitConv 1 "s" units nuc.data.year_conv with
    | Except.error e => Except.error e
    | Except.ok conv => Except.ok (npDiv (conv * nuc.data.ln2) nuc.decay_constant)

/-- `Radionuclide.progeny`: the keys of `prog_bf_mode` in stored order. -/
def Radionuclide.progeny (nuc : Radionuclide) : List String :=
  nuc.prog_bf_mode.map Prod.fst

/-- `Radionuclide.branching_fractions`: the first component of each
`prog_bf_mode` value, in stored order. -/
def Radionuclide.branching_fractions (nuc : Radionuclide) : List ℝ :=
  nuc.prog_bf_mode.map (fun e => e.2.1)

/-- `Radionuclide.decay_modes`: the second component of each
`prog_bf_mode` value, in stored order. -/
def Radionuclide.decay_modes (nuc : Radionuclide) : List String :=
  nuc.prog_bf_mode.map (fun e => e.2.2)

/-- `Radionuclide.__repr__`. -/
def reprRadionuclide (nuc : Radionuclide) : String :=
  "Radionuclide: " ++ nuc.radionuclide ++ ", Decay dataset: " ++ nuc.data.dataset

/-- Modelled from the spec: `Radionuclide.change` (§4.3) is exercised by
the test suite but absent from the provided `radionuclide.py`;
modelled as the in-place rebinding of the view to a new nuclide and
dataset, via explicit state passing: the first component of the result
is the state of the object after the call, the second the raised
`InvalidIdentifier`-style error, if any.  On failure the object is left
unchanged. -/
noncomputable def changeRn (nuc : Radionuclide) (raw : String) (d : DecayData) :
    Radionuclide × Option String :=
  match mkRadionuclide raw d with
  | Except.ok n => (n, none)
  | Except.error e => (nuc, some e)

/-! ## Inventory and the decay-chain solver (spec §3, §4.4, §4.5)

Modelled from the spec: the `Inventory` class and the Bateman
decay-chain solver are not part of the provided source; the definitions
below follow §3 (contents mapping over a shared dataset), §4.4 (the
`+` operator requires dataset compatibility and merges contents by
pointwise addition) and §4.5 (depth-first enumeration of decay paths
and per-path evaluation of the closed-form Bateman solution). -/

/-- Modelled from the spec: an inventory, a mapping from canonical
nuclide identifiers to real quantities bound to a decay dataset.  The
mapping is represented by its key set and a total value function that
is zero off the key set. -/
structure Inventory where
  keys : Finset String
  contents : String → ℝ
  data : DecayData
  zero_outside : ∀ n, n ∉ keys → contents n = 0

/-- An inventory holding a single nuclide with a given quantity. -/
noncomputable def singleInv (X : String) (Q : ℝ) (d : DecayData) : Inventory where
  keys := {X}
  contents := fun n => if n = X then Q else 0
  data := d
  zero_outside := by
    intro n hn
    simp only [Finset.mem_singleton] at hn
    simp [hn]

/-- Modelled from the spec: the `+` operator of §4.4.  Both operands
must be bound to datasets with the same identifier, otherwise the
operation fails (`IncompatibleDataset`); on success the contents are
merged by pointwise addition and the result is bound to the left
operand's dataset. -/
noncomputable def addInv (A B : Inventory) : Option Inventory :=
  if A.data.dataset = B.data.dataset then
    some
      { keys := A.keys ∪ B.keys
        contents := fun n => A.contents n + B.contents n
        data := A.data
        zero_outside := by
          intro n hn
          rw [Finset.mem_union] at hn
          push_neg at hn
          show A.contents n + B.contents n = 0
          rw [A.zero_outside n hn.1, B.zero_outside n hn.2, add_zero] }
  else none

/-- Modelled from the spec: depth-first enumeration of the decay paths
leaving a root nuclide (§4.5).  A path is recorded as the list of steps
after the root, each step a (nuclide, branching fraction) pair taken
from the dataset's progeny map; the empty step list is the length-one
path consisting of the root alone.  The fuel argument bounds the path
depth; decay chains are acyclic (§3 invariant), so any fuel at least
the number of nuclides enumerates every path. -/
noncomputable def stepsFrom (d : DecayData) : ℕ → String → List (List (String × ℝ))
  | 0, _ => [[]]
  | fuel + 1, r =>
    [] :: (progenyEntriesOf d r).flatMap
      (fun e => (stepsFrom d fuel e.1).map (fun s => (e.1, e.2.1) :: s))

/-- Terminal nuclide of a path: the last step's nuclide, or the root
for the length-one path. -/
def terminalOf (r : String) (s : List (String × ℝ)) : String :=
  (s.map Prod.fst).getLastD r

/-- Decay constants along a path, root first. -/
noncomputable def lamsOf (d : DecayData) (r : String) (s : List (String × ℝ)) :
    List ℝ :=
  (r :: s.map Prod.fst).map (decayConstOf d)

/-- Modelled from the spec: the time-dependent factor of the Bateman
closed-form solution for one path (§4.5), the sum over chain members of
`exp(-lam_m t)` divided by the product of the differences of the other
decay constants to `lam_m`. -/
noncomputable def batemanSum (lams : List ℝ) (t : ℝ) : ℝ :=
  ∑ m in Finset.range lams.length,
    Real.exp (-(lams.getD m 0) * t) /
      ∏ p in (Finset.range lams.length).erase m, (lams.getD p 0 - lams.getD m 0)

/-- Modelled from the spec: the degenerate-case limiting form (§4.5).
When decay constants on a path collide the closed-form sum is replaced
by its limit as the colliding constants converge, applied recursively
pairwise; that limit is exactly the convolution form of the chain
solution, which is continuous in the decay constants, so it is used
here as the definition of the degenerate branch. -/
noncomputable def chainFactor : List ℝ → ℝ → ℝ
  | [], _ => 0
  | [l], t => Real.exp (-l * t)
  | l :: l2 :: ls, t =>
    ∫ s in (0 : ℝ)..t, Real.exp (-l * (t - s)) * chainFactor (l2 :: ls) s

/-- Modelled from the spec: the per-path time factor of §4.5, with the
degenerate-case policy: the closed-form sum when all decay constants on
the path are pairwise distinct, the limiting form otherwise. -/
noncomputable def batemanFactor (lams : List ℝ) (t : ℝ) : ℝ :=
  open Classical in
  if lams.Pairwise (fun a b => a ≠ b) then batemanSum lams t
  else chainFactor lams t

/-- Modelled from the spec: contribution coefficient of one root
nuclide to one output nuclide (§4.5): the sum over the enumerated paths
from the root terminating at the output nuclide of the product of the
branching fractions, the product of all decay constants except the
last, and the per-path time factor.  The root quantity multiplies this
coefficient linearly. -/
noncomputable def pathCoeff (d : DecayData) (fuel : ℕ) (r n : String) (t : ℝ) : ℝ :=
  (((stepsFrom d fuel r).filter (fun s => terminalOf r s = n)).map
    (fun s =>
      (s.map Prod.snd).prod * (lamsOf d r s).dropLast.prod *
        batemanFactor (lamsOf d r s) t)).sum

/-- Nuclides reached by some enumerated path from a root. -/
noncomputable def reachSet (d : DecayData) (fuel : ℕ) (r : String) : Finset String :=
  ((stepsFrom d fuel r).map (terminalOf r)).toFinset

/-- A path coefficient vanishes for nuclides no path reaches. -/
theorem pathCoeff_eq_zero_of_not_reach (d : DecayData) (fuel : ℕ) (r n : String)
    (t : ℝ) (h : n ∉ reachSet d fuel r) : pathCoeff d fuel r n t = 0 := by
  have hfil : (stepsFrom d fuel r).filter (fun s => terminalOf r s = n) = [] := by
    rw [List.filter_eq_nil_iff]
    intro s hs
    simp only [decide_eq_true_eq]
    intro hterm
    exact h (by
      rw [reachSet, List.mem_toFinset]
      exact hterm ▸ List.mem_map_of_mem (terminalOf r) hs)
  rw [pathCoeff, hfil]
  simp

/-- Modelled from the spec: the decay-chain solver of §4.5.  For each
nuclide in the inventory, enumerate its decay paths (with fuel equal to
the dataset size) and accumulate the per-path Bateman contributions
into a shared result mapping keyed by terminal nuclide; the output is a
new inventory over the same dataset whose key set is every nuclide
reached by any path. -/
noncomputable def decayInv (A : Inventory) (t : ℝ) : Inventory where
  keys := A.keys.biUnion (fun r => reachSet A.data A.data.radionuclides.length r)
  contents := fun n =>
    ∑ r in A.keys, A.contents r * pathCoeff A.data A.data.radionuclides.length r n t
  data := A.data
  zero_outside := by
    intro n hn
    rw [Finset.mem_biUnion] at hn
    push_neg at hn
    refine Finset.sum_eq_zero (fun r hr => ?_)
    rw [pathCoeff_eq_zero_of_not_reach A.data A.data.radionuclides.length r n t
      (hn r hr), mul_zero]

/-- Modelled from the spec: `Inventory.decay(t, unit)` converts the
elapsed time into seconds via the §4.2 unit converter and invokes the
decay-chain solver. -/
noncomputable def decayMethod (A : Inventory) (tval : ℝ) (u : String) :
    Except String Inventory :=
  match timeUnitConv tval u "s" A.data.year_conv with
  | Except.error e => Except.error e
  | Except.ok secs => Except.ok (decayInv A secs)

/-! ## A concrete dataset fragment for evaluating the theorems

A small fragment of the ICRP 107 reference dataset, holding the three
nuclides whose reference values appear in the test suite: H-3
(half-life 12.32 y, no recorded progeny), K-40 (progeny Ca-40 and
Ar-40 with branching fractions 0.8914 and 0.1086) and Rn-222
(half-life 3.8235 d). -/

/-- Concrete sample dataset used to instantiate the theorems. -/
noncomputable def icrpSample : DecayData where
  dataset := "icrp107"
  radionuclides := ["H-3", "K-40", "Rn-222"]
  decay_consts :=
    [Real.log 2 / (12.32 * 365.2422 * 86400),
      Real.log 2 / (1251000000 * 365.2422 * 86400),
      Real.log 2 / (3.8235 * 86400)]
  prog_bfs_modes :=
    [[],
      [("Ca-40", 0.8914, "B-"), ("Ar-40", 0.1086, "B+ and EC")],
      []]
  year_conv := 365.2422
  ln2 := Real.log 2

/-- The H-3 view over the sample dataset. -/
noncomputable def nucH3 : Radionuclide where
  radionuclide := "H-3"
  decay_constant := decayConstOf icrpSample "H-3"
  prog_bf_mode := progenyEntriesOf icrpSample "H-3"
  data := icrpSample

/-- The K-40 view over the sample dataset. -/
noncomputable def nucK40 : Radionuclide where
  radionuclide := "K-40"
  decay_constant := decayConstOf icrpSample "K-40"
  prog_bf_mode := progenyEntriesOf icrpSample "K-40"
  data := icrpSample

/-- The Rn-222 view over the sample dataset. -/
noncomputable def nucRn222 : Radionuclide where
  radionuclide := "Rn-222"
  decay_constant := decayConstOf icrpSample "Rn-222"
  prog_bf_mode := progenyEntriesOf icrpSample "Rn-222"
  data := icrpSample

/-- A view over a stable nuclide: decay constant zero. -/
noncomputable def nucStable : Radionuclide where
  radionuclide := "Ca-40"
  decay_constant := 0
  prog_bf_mode := []
  data := icrpSample

/-! ## Helper lemmas about characters and list scanning -/

/-- An upper-case letter is not a digit. -/
theorem upper_not_digit (c : Char) (h : c.isUpper = true) : c.isDigit = false := by
  simp only [Char.isUpper, Char.isDigit, Bool.and_eq_true, decide_eq_true_eq,
    ge_iff_le, UInt32.le_def, BitVec.le_def] at h ⊢
  norm_num at h ⊢
  omega

/-- A digit is not a letter. -/
theorem digit_not_alpha (c : Char) (h : c.isDigit = true) : c.isAlpha = false := by
  simp only [Char.isDigit, Char.isAlpha, Char.isUpper, Char.isLower,
    Bool.and_eq_true, Bool.or_eq_false_iff, Bool.and_eq_false_iff,
    decide_eq_true_eq, decide_eq_false_iff_not, ge_iff_le, not_le,
    UInt32.le_def, UInt32.lt_def, BitVec.le_def, BitVec.lt_def] at h ⊢
  norm_num at h ⊢
  omega

/-- A letter is not the hyphen. -/
theorem alpha_ne_hyphen (c : Char) (h : c.isAlpha = true) : c ≠ '-' := by
  intro hc
  subst hc
  simp [Char.isAlpha, Char.isUpper, Char.isLower] at h

/-- A digit is not the hyphen. -/
theorem digit_ne_hyphen (c : Char) (h : c.isDigit = true) : c ≠ '-' := by
  intro hc
  subst hc
  simp [Char.isDigit] at h

/-- A metastable suffix character is one of the two letters m, n. -/
theorem suffixChar_cases (c : Char) (h : isSuffixChar c = true) :
    c = 'm' ∨ c = 'n' := by
  simpa [isSuffixChar] using h

/-- A metastable suffix character is not a digit. -/
theorem suffixChar_not_digit (c : Char) (h : isSuffixChar c = true) :
    c.isDigit = false := by
  rcases suffixChar_cases c h with rfl | rfl <;> decide

/-- A metastable suffix character is a letter. -/
theorem suffixChar_alpha (c : Char) (h : isSuffixChar c = true) :
    c.isAlpha = true := by
  rcases suffixChar_cases c h with rfl | rfl <;> decide

/-- An upper-case letter is not a metastable suffix character. -/
theorem upper_not_suffixChar (c : Char) (h : c.isUpper = true) :
    isSuffixChar c = false := by
  rcases eq_or_ne c 'm' with rfl | hm
  · exact absurd h (by decide)
  rcases eq_or_ne c 'n' with rfl | hn
  · exact absurd h (by decide)
  simp [isSuffixChar, hm, hn]

/-- `takeWhile` over an append whose first block satisfies the predicate. -/
theorem takeWhile_append_all {p : Char → Bool} {xs ys : List Char}
    (h : ∀ x ∈ xs, p x = true) :
    (xs ++ ys).takeWhile p = xs ++ ys.takeWhile p := by
  induction xs with
  | nil => simp
  | cons a l ih =>
    have ha := h a (List.mem_cons_self a l)
    simp [List.takeWhile_cons, ha, ih (fun x hx => h x (List.mem_cons_of_mem a hx))]

/-- `dropWhile` over an append whose first block satisfies the predicate. -/
theorem dropWhile_append_all {p : Char → Bool} {xs ys : List Char}
    (h : ∀ x ∈ xs, p x = true) :
    (xs ++ ys).dropWhile p = ys.dropWhile p := by
  induction xs with
  | nil => simp
  | cons a l ih =>
    have ha := h a (List.mem_cons_self a l)
    simp [List.dropWhile_cons, ha, ih (fun x hx => h x (List.mem_cons_of_mem a hx))]

/-- Structure of a valid element symbol. -/
theorem symbolShape_cases {s : List Char} (h : symbolShape s = true) :
    (∃ a, s = [a] ∧ a.isUpper = true) ∨
      (∃ a b, s = [a, b] ∧ a.isUpper = true ∧ b.isLower = true) := by
  match s with
  | [] => simp [symbolShape] at h
  | [a] => exact Or.inl ⟨a, rfl, by simpa [symbolShape] using h⟩
  | [a, b] =>
    rw [symbolShape, Bool.and_eq_true] at h
    exact Or.inr ⟨a, b, rfl, h.1, h.2⟩
  | _ :: _ :: _ :: _ => simp [symbolShape] at h

/-- Every character of a valid element symbol is a letter. -/
theorem symbolShape_alpha {s : List Char} (h : symbolShape s = true) :
    ∀ c ∈ s, c.isAlpha = true := by
  rcases symbolShape_cases h with ⟨a, rfl, ha⟩ | ⟨a, b, rfl, ha, hb⟩
  · intro c hc
    rw [List.mem_singleton] at hc
    subst hc
    simp [Char.isAlpha, ha]
  · intro c hc
    rw [List.mem_cons] at hc
    rcases hc with hc | hc
    · subst hc
      simp [Char.isAlpha, ha]
    · rw [List.mem_singleton] at hc
      subst hc
      simp [Char.isAlpha, hb]

/-- A valid element symbol starts with an upper-case letter. -/
theorem symbolShape_head {s : List Char} (h : symbolShape s = true) :
    ∃ a t, s = a :: t ∧ a.isUpper = true := by
  rcases symbolShape_cases h with ⟨a, rfl, ha⟩ | ⟨a, b, rfl, ha, hb⟩
  · exact ⟨a, [], rfl, ha⟩
  · exact ⟨a, [b], rfl, ha⟩

/-- Every character of a valid mass number is a digit. -/
theorem massShape_digits {m : List Char} (h : massShape m = true) :
    ∀ c ∈ m, c.isDigit = true := by
  rw [massShape, Bool.and_eq_true, Bool.and_eq_true] at h
  exact fun c hc => List.all_eq_true.mp h.2 c hc

/-- A valid mass number starts with a digit. -/
theorem massShape_head {m : List Char} (h : massShape m = true) :
    ∃ c t, m = c :: t ∧ c.isDigit = true := by
  match m with
  | [] => simp [massShape] at h
  | c :: t =>
    exact ⟨c, t, rfl, massShape_digits h c (List.mem_cons_self c t)⟩

/-- Structure of a valid metastable suffix. -/
theorem suffixShape_cases {s : List Char} (h : suffixShape s = true) :
    s = [] ∨ ∃ c, s = [c] ∧ isSuffixChar c = true := by
  match s with
  | [] => exact Or.inl rfl
  | [c] => exact Or.inr ⟨c, rfl, by simpa [suffixShape] using h⟩
  | _ :: _ :: _ => simp [suffixShape] at h

/-- A list none of whose characters is the hyphen does not contain it. -/
theorem contains_hyphen_false {cs : List Char} (h : ∀ c ∈ cs, c ≠ '-') :
    cs.contains '-' = false := by
  have : '-' ∉ cs := fun hc => h '-' hc rfl
  simpa [List.contains, List.elem_iff] using this

/-- `splitParts` recovers the parts of a canonical `Symbol-Mass[Suffix]`
identifier. -/
theorem splitParts_canonical {sym mass suf : List Char}
    (hs : symbolShape sym = true) (hm : massShape mass = true)
    (hf : suffixShape suf = true) :
    splitParts (sym ++ '-' :: (mass ++ suf)) = some (sym, mass, suf) := by
  obtain ⟨a, t, hsym, ha⟩ := symbolShape_head hs
  have hcontains : ((sym ++ '-' :: (mass ++ suf)).contains '-') = true := by
    have hmem : '-' ∈ sym ++ '-' :: (mass ++ suf) :=
      List.mem_append_right _ (List.mem_cons_self _ _)
    simp [List.contains, List.elem_iff, hmem]
  have hp : ∀ x ∈ sym, (fun x => decide (x ≠ '-')) x = true := by
    intro x hx
    simp only [decide_eq_true_eq]
    exact alpha_ne_hyphen x (symbolShape_alpha hs x hx)
  have htake : (sym ++ '-' :: (mass ++ suf)).takeWhile (fun x => decide (x ≠ '-'))
      = sym := by
    rw [takeWhile_append_all hp]
    simp [List.takeWhile_cons]
  have hdropp : (sym ++ '-' :: (mass ++ suf)).dropWhile (fun x => decide (x ≠ '-'))
      = '-' :: (mass ++ suf) := by
    rw [dropWhile_append_all hp]
    simp [List.dropWhile_cons]
  have hdig : ∀ x ∈ mass, Char.isDigit x = true := massShape_digits hm
  have htake2 : (mass ++ suf).takeWhile Char.isDigit = mass := by
    rw [takeWhile_append_all hdig]
    rcases suffixShape_cases hf with rfl | ⟨c, rfl, hc⟩
    · simp
    · simp [List.takeWhile_cons, suffixChar_not_digit c hc]
  have hdrop2 : (mass ++ suf).dropWhile Char.isDigit = suf := by
    rw [dropWhile_append_all hdig]
    rcases suffixShape_cases hf with rfl | ⟨c, rfl, hc⟩
    · simp
    · simp [List.dropWhile_cons, suffixChar_not_digit c hc]
  subst hsym
  simp only [List.cons_append] at hcontains htake hdropp ⊢
  rw [splitParts]
  simp only [hcontains, if_true]
  rw [htake, hdropp]
  simp only [List.drop_succ_cons, List.drop_zero]
  rw [htake2, hdrop2]

/-- `splitParts` recovers the parts of a compact `SymbolMass[Suffix]`
identifier. -/
theorem splitParts_compact {sym mass suf : List Char}
    (hs : symbolShape sym = true) (hm : massShape mass = true)
    (hf : suffixShape suf = true) :
    splitParts (sym ++ (mass ++ suf)) = some (sym, mass, suf) := by
  obtain ⟨a, t, hsym, ha⟩ := symbolShape_head hs
  obtain ⟨m0, mt, hmass, hm0⟩ := massShape_head hm
  have hcontains : ((sym ++ (mass ++ suf)).contains '-') = false := by
    refine contains_hyphen_false ?_
    intro c hc
    rw [List.mem_append, List.mem_append] at hc
    rcases hc with hc | hc | hc
    · exact alpha_ne_hyphen c (symbolShape_alpha hs c hc)
    · exact digit_ne_hyphen c (massShape_digits hm c hc)
    · rcases suffixShape_cases hf with rfl | ⟨x, rfl, hx⟩
      · simp at hc
      · rw [List.mem_singleton] at hc
        subst hc
        exact alpha_ne_hyphen c (suffixChar_alpha c hx)
  have hsalpha : ∀ x ∈ sym, Char.isAlpha x = true := symbolShape_alpha hs
  have htake : (sym ++ (mass ++ suf)).takeWhile Char.isAlpha = sym := by
    rw [takeWhile_append_all hsalpha, hmass]
    simp [List.takeWhile_cons, digit_not_alpha m0 hm0]
  have hdropp : (sym ++ (mass ++ suf)).dropWhile Char.isAlpha = mass ++ suf := by
    rw [dropWhile_append_all hsalpha, hmass]
    simp [List.dropWhile_cons, digit_not_alpha m0 hm0]
  have hdig : ∀ x ∈ mass, Char.isDigit x = true := massShape_digits hm
  have htake2 : (mass ++ suf).takeWhile Char.isDigit = mass := by
    rw [takeWhile_append_all hdig]
    rcases suffixShape_cases hf with rfl | ⟨c, rfl, hc⟩
    · simp
    · simp [List.takeWhile_cons, suffixChar_not_digit c hc]
  have hdrop2 : (mass ++ suf).dropWhile Char.isDigit = suf := by
    rw [dropWhile_append_all hdig]
    rcases suffixShape_cases hf with rfl | ⟨c, rfl, hc⟩
    · simp
    · simp [List.dropWhile_cons, suffixChar_not_digit c hc]
  have hadig : a.isDigit = false := upper_not_digit a ha
  subst hsym
  simp only [List.cons_append] at hcontains htake hdropp ⊢
  rw [splitParts]
  simp only [hcontains, Bool.false_eq_true, if_false, hadig]
  rw [htake, hdropp, htake2, hdrop2]

/-- `splitParts` recovers the parts of an inverted `Mass[Suffix]Symbol`
identifier. -/
theorem splitParts_inverted {sym mass suf : List Char}
    (hs : symbolShape sym = true) (hm : massShape mass = true)
    (hf : suffixShape suf = true) :
    splitParts (mass ++ (suf ++ sym)) = some (sym, mass, suf) := by
  obtain ⟨a, t, hsym, ha⟩ := symbolShape_head hs
  obtain ⟨m0, mt, hmass, hm0⟩ := massShape_head hm
  have hcontains : ((mass ++ (suf ++ sym)).contains '-') = false := by
    refine contains_hyphen_false ?_
    intro c hc
    rw [List.mem_append, List.mem_append] at hc
    rcases hc with hc | hc | hc
    · exact digit_ne_hyphen c (massShape_digits hm c hc)
    · rcases suffixShape_cases hf with rfl | ⟨x, rfl, hx⟩
      · simp at hc
      · rw [List.mem_singleton] at hc
        subst hc
        exact alpha_ne_hyphen c (suffixChar_alpha c hx)
    · exact alpha_ne_hyphen c (symbolShape_alpha hs c hc)
  have hdig : ∀ x ∈ mass, Char.isDigit x = true := massShape_digits hm
  have htake : (mass ++ (suf ++ sym)).takeWhile Char.isDigit = mass := by
    rw [takeWhile_append_all hdig]
    rcases suffixShape_cases hf with rfl | ⟨c, rfl, hc⟩
    · rw [List.nil_append, hsym]
      simp [List.takeWhile_cons, upper_not_digit a ha]
    · simp [List.takeWhile_cons, suffixChar_not_digit c hc]
  have hdropp : (mass ++ (suf ++ sym)).dropWhile Char.isDigit = suf ++ sym := by
    rw [dropWhile_append_all hdig]
    rcases suffixShape_cases hf with rfl | ⟨c, rfl, hc⟩
    · rw [List.nil_append, hsym]
      simp [List.dropWhile_cons, upper_not_digit a ha]
    · simp [List.dropWhile_cons, suffixChar_not_digit c hc]
  subst hmass
  simp only [List.cons_append] at hcontains htake hdropp ⊢
  rw [splitParts]
  simp only [hcontains, Bool.false_eq_true, if_false, hm0, if_true]
  rw [htake, hdropp]
  rcases suffixShape_cases hf with rfl | ⟨c, rfl, hc⟩
  · rw [List.nil_append, hsym]
    simp [upper_not_suffixChar a ha, hsym]
  · simp [hc]

/-- `parseRadionuclide` canonicalizes any raw string whose parts are
valid and whose canonical form belongs to the dataset. -/
theorem parse_ok_of_splitParts {cs sym mass suf : List Char}
    {nuclides : List String} {ds : String}
    (hsp : splitParts cs = some (sym, mass, suf))
    (hs : symbolShape sym = true) (hm : massShape mass = true)
    (hf : suffixShape suf = true)
    (hmem : String.mk (sym ++ '-' :: (mass ++ suf)) ∈ nuclides) :
    parseRadionuclide (String.mk cs) nuclides ds
      = Except.ok (String.mk (sym ++ '-' :: (mass ++ suf))) := by
  rw [parseRadionuclide]
  have hl : (String.mk cs).toList = cs := rfl
  rw [hl, hsp]
  simp [hs, hm, hf, hmem]

/-- A successful canonicalization returns an identifier present in the
dataset nuclide list. -/
theorem parse_ok_mem {raw : String} {nuclides : List String} {ds name : String}
    (h : parseRadionuclide raw nuclides ds = Except.ok name) :
    name ∈ nuclides := by
  rw [parseRadionuclide] at h
  split at h
  · exact absurd h (by simp)
  · split at h
    · split at h
      · rename_i hmem
        rw [Except.ok.injEq] at h
        exact h ▸ hmem
      · exact absurd h (by simp)
    · exact absurd h (by simp)

/-- Every recognized unit has a positive seconds-per-unit constant,
provided the year-length constant is positive. -/
theorem unitSeconds_pos {u : String} {yc su : ℝ} (hyc : 0 < yc)
    (hu : unitSeconds u yc = some su) : 0 < su := by
  unfold unitSeconds at hu
  split at hu
  all_goals first
    | (rw [Option.some.injEq] at hu; subst hu; positivity)
    | exact absurd hu (by simp)

/-- Field content of a successfully constructed `Radionuclide`. -/
theorem mkRadionuclide_ok {raw : String} {d : DecayData} {nuc : Radionuclide}
    (h : mkRadionuclide raw d = Except.ok nuc) :
    parseRadionuclide raw d.radionuclides d.dataset = Except.ok nuc.radionuclide ∧
      nuc.decay_constant = decayConstOf d nuc.radionuclide ∧
      nuc.prog_bf_mode = progenyEntriesOf d nuc.radionuclide ∧
      nuc.data = d := by
  rw [mkRadionuclide] at h
  cases hp : parseRadionuclide raw d.radionuclides d.dataset with
  | error e =>
    rw [hp] at h
    exact absurd h (by simp)
  | ok name =>
    rw [hp] at h
    rw [Except.ok.injEq] at h
    subst h
    exact ⟨rfl, rfl, rfl, rfl⟩

/-- Two inventories with the same keys, contents and dataset are equal. -/
theorem Inventory.ext_eq {A B : Inventory} (hk : A.keys = B.keys)
    (hc : A.contents = B.contents) (hd : A.data = B.data) : A = B := by
  obtain ⟨Ak, Ac, Ad, Az⟩ := A
  obtain ⟨Bk, Bc, Bd, Bz⟩ := B
  simp only at hk hc hd
  subst hk
  subst hc
  subst hd
  rfl

/-- `biUnion` distributes over a union of key sets. -/
theorem biUnion_union_keys (s t : Finset String) (f : String → Finset String) :
    (s ∪ t).biUnion f = s.biUnion f ∪ t.biUnion f := by
  ext x
  simp only [Finset.mem_biUnion, Finset.mem_union]
  constructor
  · rintro ⟨a, ha | ha, hx⟩
    · exact Or.inl ⟨a, ha, hx⟩
    · exact Or.inr ⟨a, ha, hx⟩
  · rintro (⟨a, ha, hx⟩ | ⟨a, ha, hx⟩)
    · exact ⟨a, Or.inl ha, hx⟩
    · exact ⟨a, Or.inr ha, hx⟩

/-- The Bateman closed-form sum for a single-member path is a bare
exponential. -/
theorem batemanSum_singleton (l t : ℝ) : batemanSum [l] t = Real.exp (-l * t) := by
  rw [batemanSum]
  simp

/-- The per-path factor for a single-member path is a bare exponential. -/
theorem batemanFactor_singleton (l t : ℝ) :
    batemanFactor [l] t = Real.exp (-l * t) := by
  rw [batemanFactor, if_pos (List.pairwise_singleton _ l), batemanSum_singleton]

/-- Every non-root path produced by the enumeration has at least one step. -/
theorem stepsFrom_ne_nil_of_mem_flatMap {d : DecayData} {fuel : ℕ} {r : String}
    {s : List (String × ℝ)}
    (hs : s ∈ (progenyEntriesOf d r).flatMap
      (fun e => (stepsFrom d fuel e.1).map (fun s0 => (e.1, e.2.1) :: s0))) :
    s ≠ [] := by
  rw [List.mem_flatMap] at hs
  obtain ⟨e, _, hs2⟩ := hs
  rw [List.mem_map] at hs2
  obtain ⟨s0, _, rfl⟩ := hs2
  simp

/-- Under acyclicity at the root, the only enumerated path from the
root that terminates at the root is the trivial one. -/
theorem filter_steps_eq_trivial (d : DecayData) (fuel : ℕ) (X : String)
    (hacyc : ∀ s ∈ stepsFrom d fuel X, s ≠ [] → terminalOf X s ≠ X) :
    (stepsFrom d fuel X).filter (fun s => terminalOf X s = X) = [[]] := by
  cases fuel with
  | zero =>
    rw [stepsFrom]
    simp [terminalOf]
  | succ n =>
    rw [stepsFrom]
    rw [List.filter_cons]
    have h0 : terminalOf X ([] : List (String × ℝ)) = X := rfl
    have hrest : ((progenyEntriesOf d X).flatMap
        (fun e => (stepsFrom d n e.1).map (fun s0 => (e.1, e.2.1) :: s0))).filter
          (fun s => terminalOf X s = X) = [] := by
      rw [List.filter_eq_nil_iff]
      intro s hs
      have hmem : s ∈ stepsFrom d (n + 1) X := by
        rw [stepsFrom]
        exact List.mem_cons_of_mem _ hs
      have hne : s ≠ [] := stepsFrom_ne_nil_of_mem_flatMap hs
      simpa using hacyc s hmem hne
    rw [hrest]
    simp [h0]

/-! ## Claim theorems -/

/-- C7: nuclide-identifier canonicalization is idempotent on canonical
`Symbol-Mass[Suffix]` identifiers and convergent on the accepted
alternate spellings: the compact `SymbolMass[Suffix]` form and the
inverted `Mass[Suffix]Symbol` form canonicalize to the same canonical
result as the canonical form itself. -/
theorem canonicalization_idempotent_convergent (sym mass suf : List Char)
    (nuclides : List String) (ds : String)
    (hs : symbolShape sym = true) (hm : massShape mass = true)
    (hf : suffixShape suf = true)
    (hmem : String.mk (sym ++ '-' :: (mass ++ suf)) ∈ nuclides) :
    parseRadionuclide (String.mk (sym ++ '-' :: (mass ++ suf))) nuclides ds
        = Except.ok (String.mk (sym ++ '-' :: (mass ++ suf))) ∧
      parseRadionuclide (String.mk (sym ++ (mass ++ suf))) nuclides ds
        = Except.ok (String.mk (sym ++ '-' :: (mass ++ suf))) ∧
      parseRadionuclide (String.mk (mass ++ (suf ++ sym))) nuclides ds
        = Except.ok (String.mk (sym ++ '-' :: (mass ++ suf))) :=
  ⟨parse_ok_of_splitParts (splitParts_canonical hs hm hf) hs hm hf hmem,
    parse_ok_of_splitParts (splitParts_compact hs hm hf) hs hm hf hmem,
    parse_ok_of_splitParts (splitParts_inverted hs hm hf) hs hm hf hmem⟩

/-- Witness for C7 at the concrete spellings H-3, H3, 3H against a
dataset list containing H-3. -/
theorem canonicalization_idempotent_convergent_witness :
    symbolShape ['H'] = true ∧ massShape ['3'] = true ∧ suffixShape [] = true ∧
      String.mk ['H', '-', '3'] ∈ ["H-3"] ∧
      parseRadionuclide "H-3" ["H-3"] "icrp107" = Except.ok "H-3" ∧
      parseRadionuclide "H3" ["H-3"] "icrp107" = Except.ok "H-3" ∧
      parseRadionuclide "3H" ["H-3"] "icrp107" = Except.ok "H-3" := by
  have h := canonicalization_idempotent_convergent ['H'] ['3'] [] ["H-3"] "icrp107"
    (by decide) (by decide) (by decide) (by decide)
  exact ⟨by decide, by decide, by decide, by decide, h.1, h.2.1, h.2.2⟩

/-- C8: time-unit conversion fails exactly when the from-unit or the
to-unit token is unrecognized, and on every pair of recognized tokens
returns the value scaled by the two seconds-per-unit constants. -/
theorem time_unit_conv_contract (v : ℝ) (uf ut : String) (yc : ℝ) :
    ((∃ e, timeUnitConv v uf ut yc = Except.error e) ↔
        unitSeconds uf yc = none ∨ unitSeconds ut yc = none) ∧
      ∀ a b, unitSeconds uf yc = some a → unitSeconds ut yc = some b →
        timeUnitConv v uf ut yc = Except.ok (v * a / b) := by
  cases huf : unitSeconds uf yc with
  | none =>
    constructor
    · simp [timeUnitConv, huf]
    · intro a b ha hb
      exact absurd ha (by simp [huf])
  | some a0 =>
    cases hut : unitSeconds ut yc with
    | none =>
      constructor
      · simp [timeUnitConv, huf, hut]
      · intro a b ha hb
        exact absurd hb (by simp [hut])
    | some b0 =>
      constructor
      · simp [timeUnitConv, huf, hut]
      · intro a b ha hb
        rw [Option.some.injEq] at ha hb
        subst ha
        subst hb
        rw [timeUnitConv, huf, hut]

/-- Witness for C8: converting one hour to seconds succeeds with the
3600 seconds-per-hour constant, via the theorem's success branch. -/
theorem time_unit_conv_contract_witness :
    unitSeconds "h" (365.2422 : ℝ) = some 3600 ∧
      unitSeconds "s" (365.2422 : ℝ) = some 1 ∧
      timeUnitConv 1 "h" "s" (365.2422 : ℝ) = Except.ok (1 * 3600 / 1) :=
  ⟨rfl, rfl, (time_unit_conv_contract 1 "h" "s" (365.2422 : ℝ)).2 3600 1 rfl rfl⟩

/-- C9: the string representation of every successfully constructed
`Radionuclide` is exactly `Radionuclide: <id>, Decay dataset: <dataset>`
where the identifier is the canonical identifier the view is bound to
and the dataset identifier is that of the bound dataset. -/
theorem repr_radionuclide_format (raw : String) (d : DecayData) (nuc : Radionuclide)
    (h : mkRadionuclide raw d = Except.ok nuc) :
    parseRadionuclide raw d.radionuclides d.dataset = Except.ok nuc.radionuclide ∧
      reprRadionuclide nuc
        = "Radionuclide: " ++ nuc.radionuclide ++ ", Decay dataset: " ++ d.dataset := by
  obtain ⟨hp, _, _, hd⟩ := mkRadionuclide_ok h
  exact ⟨hp, by rw [reprRadionuclide, hd]⟩

/-- Witness for C9 at H-3 over the sample dataset. -/
theorem repr_radionuclide_format_witness :
    mkRadionuclide "H-3" icrpSample = Except.ok nucH3 ∧
      parseRadionuclide "H-3" icrpSample.radionuclides icrpSample.dataset
        = Except.ok nucH3.radionuclide ∧
      reprRadionuclide nucH3 = "Radionuclide: H-3, Decay dataset: icrp107" :=
  ⟨rfl, (repr_radionuclide_format "H-3" icrpSample nucH3 rfl).1,
    ((repr_radionuclide_format "H-3" icrpSample nucH3 rfl).2.trans rfl)⟩

/-- C10: every successfully constructed `Radionuclide` stores the
canonicalized form of the constructor argument, that identifier is
present in the dataset nuclide list, and the decay constant and progeny
map attributes are the dataset entries at that identifier's dense
index; when the argument does not canonicalize to a dataset nuclide the
constructor propagates the error, producing no object. -/
theorem init_invariant (raw : String) (d : DecayData) :
    (∀ nuc, mkRadionuclide raw d = Except.ok nuc →
        parseRadionuclide raw d.radionuclides d.dataset = Except.ok nuc.radionuclide ∧
        nuc.radionuclide ∈ d.radionuclides ∧
        nuc.decay_constant
          = d.decay_consts.getD (d.radionuclides.indexOf nuc.radionuclide) 0 ∧
        nuc.prog_bf_mode
          = d.prog_bfs_modes.getD (d.radionuclides.indexOf nuc.radionuclide) [] ∧
        nuc.data = d) ∧
      ∀ e, parseRadionuclide raw d.radionuclides d.dataset = Except.error e →
        mkRadionuclide raw d = Except.error e := by
  constructor
  · intro nuc h
    obtain ⟨hp, hdc, hpm, hd⟩ := mkRadionuclide_ok h
    exact ⟨hp, parse_ok_mem hp, hdc, hpm, hd⟩
  · intro e hp
    rw [mkRadionuclide, hp]

/-- Witness for C10 at H-3 over the sample dataset. -/
theorem init_invariant_witness :
    mkRadionuclide "H-3" icrpSample = Except.ok nucH3 ∧
      (parseRadionuclide "H-3" icrpSample.radionuclides icrpSample.dataset
          = Except.ok nucH3.radionuclide ∧
        nucH3.radionuclide ∈ icrpSample.radionuclides ∧
        nucH3.decay_constant = icrpSample.decay_consts.getD
          (icrpSample.radionuclides.indexOf nucH3.radionuclide) 0 ∧
        nucH3.prog_bf_mode = icrpSample.prog_bfs_modes.getD
          (icrpSample.radionuclides.indexOf nucH3.radionuclide) [] ∧
        nucH3.data = icrpSample) :=
  ⟨rfl, (init_invariant "H-3" icrpSample).1 nucH3 rfl⟩

/-- C5: for every successfully constructed `Radionuclide`, the progeny,
branching-fraction and decay-mode lists have equal length and are
index-aligned: the entries at index i are the three components of the
i-th entry of the dataset's progeny map for that nuclide, in the
dataset's stored order. -/
theorem progeny_lists_aligned (raw : String) (d : DecayData) (nuc : Radionuclide)
    (h : mkRadionuclide raw d = Except.ok nuc) :
    nuc.progeny.length = nuc.branching_fractions.length ∧
      nuc.progeny.length = nuc.decay_modes.length ∧
      ∀ i : ℕ,
        nuc.progeny[i]?
            = ((progenyEntriesOf d nuc.radionuclide)[i]?).map Prod.fst ∧
          nuc.branching_fractions[i]?
            = ((progenyEntriesOf d nuc.radionuclide)[i]?).map (fun e => e.2.1) ∧
          nuc.decay_modes[i]?
            = ((progenyEntriesOf d nuc.radionuclide)[i]?).map (fun e => e.2.2) := by
  obtain ⟨_, _, hpm, _⟩ := mkRadionuclide_ok h
  refine ⟨?_, ?_, ?_⟩
  · rw [Radionuclide.progeny, Radionuclide.branching_fractions,
      List.length_map, List.length_map]
  · rw [Radionuclide.progeny, Radionuclide.decay_modes,
      List.length_map, List.length_map]
  · intro i
    rw [Radionuclide.progeny, Radionuclide.branching_fractions,
      Radionuclide.decay_modes, hpm]
    exact ⟨List.getElem?_map _ _ i, List.getElem?_map _ _ i, List.getElem?_map _ _ i⟩

/-- Witness for C5 at K-40 over the sample dataset, whose progeny map
holds two entries. -/
theorem progeny_lists_aligned_witness :
    mkRadionuclide "K-40" icrpSample = Except.ok nucK40 ∧
      (nucK40.progeny.length = nucK40.branching_fractions.length ∧
        nucK40.progeny.length = nucK40.decay_modes.length ∧
        ∀ i : ℕ,
          nucK40.progeny[i]?
              = ((progenyEntriesOf icrpSample nucK40.radionuclide)[i]?).map Prod.fst ∧
            nucK40.branching_fractions[i]?
              = ((progenyEntriesOf icrpSample nucK40.radionuclide)[i]?).map
                  (fun e => e.2.1) ∧
            nucK40.decay_modes[i]?
              = ((progenyEntriesOf icrpSample nucK40.radionuclide)[i]?).map
                  (fun e => e.2.2)) :=
  ⟨rfl, progeny_lists_aligned "K-40" icrpSample nucK40 rfl⟩

/-- C6: rebinding a `Radionuclide` view to a new identifier and dataset
succeeds exactly when the identifier canonicalizes against the dataset,
in which case the view's stored identifier, decay constant and progeny
map become the dataset entries of the new nuclide; when canonicalization
fails the call reports the error and the view is left unchanged. -/
theorem change_rebinds_view (nuc : Radionuclide) (raw : String) (d : DecayData) :
    (∀ n, mkRadionuclide raw d = Except.ok n →
        changeRn nuc raw d = (n, none) ∧
        parseRadionuclide raw d.radionuclides d.dataset = Except.ok n.radionuclide ∧
        n.decay_constant = decayConstOf d n.radionuclide ∧
        n.prog_bf_mode = progenyEntriesOf d n.radionuclide ∧
        n.data = d) ∧
      ∀ e, parseRadionuclide raw d.radionuclides d.dataset = Except.error e →
        changeRn nuc raw d = (nuc, some e) := by
  constructor
  · intro n h
    obtain ⟨hp, hdc, hpm, hd⟩ := mkRadionuclide_ok h
    refine ⟨?_, hp, hdc, hpm, hd⟩
    rw [changeRn, h]
  · intro e hp
    rw [changeRn, mkRadionuclide, hp]

/-- Witness for C6: rebinding the H-3 view to Rn-222 succeeds with the
Rn-222 dataset entries, and rebinding to an identifier absent from the
dataset reports the error and returns the unchanged view. -/
theorem change_rebinds_view_witness :
    mkRadionuclide "Rn-222" icrpSample = Except.ok nucRn222 ∧
      changeRn nucH3 "Rn-222" icrpSample = (nucRn222, none) ∧
      parseRadionuclide "Zz-99" icrpSample.radionuclides icrpSample.dataset
        = Except.error "Zz-99 is not a valid radionuclide in icrp107 dataset" ∧
      changeRn nucH3 "Zz-99" icrpSample
        = (nucH3, some "Zz-99 is not a valid radionuclide in icrp107 dataset") :=
  ⟨rfl,
    ((change_rebinds_view nucH3 "Rn-222" icrpSample).1 nucRn222 rfl).1,
    rfl,
    (change_rebinds_view nucH3 "Zz-99" icrpSample).2
      "Zz-99 is not a valid radionuclide in icrp107 dataset" rfl⟩

/-- C1: for every `Radionuclide` with a positive decay constant and
every recognized time unit, `half_life` returns ln(2) divided by the
decay constant converted into the requested unit via the unit
converter, and for the unit `s` it returns exactly ln(2) divided by the
decay constant with no conversion applied. -/
theorem half_life_unit_conversion (nuc : Radionuclide) (u : String) (su : ℝ)
    (hpos : 0 < nuc.decay_constant)
    (hln2 : nuc.data.ln2 = Real.log 2)
    (hu : unitSeconds u nuc.data.year_conv = some su) :
    halfLifeOf nuc "s" = Except.ok (FVal.fin (Real.log 2 / nuc.decay_constant)) ∧
      ∃ r, timeUnitConv (Real.log 2 / nuc.decay_constant) "s" u nuc.data.year_conv
          = Except.ok r ∧
        halfLifeOf nuc u = Except.ok (FVal.fin r) := by
  have hne : nuc.decay_constant ≠ 0 := ne_of_gt hpos
  have hs1 : unitSeconds "s" nuc.data.year_conv = some 1 := rfl
  constructor
  · rw [halfLifeOf, if_pos rfl, npDiv, if_neg hne, one_mul, hln2]
  · refine ⟨Real.log 2 / nuc.decay_constant * 1 / su, ?_, ?_⟩
    · rw [timeUnitConv, hs1, hu]
    · by_cases hus : u = "s"
      · subst hus
        rw [hs1, Option.some.injEq] at hu
        subst hu
        rw [halfLifeOf, if_pos rfl, npDiv, if_neg hne, one_mul, hln2]
        rw [Except.ok.injEq, FVal.fin.injEq]
        norm_num
      · rw [halfLifeOf, if_neg hus]
        have hconv : timeUnitConv 1 "s" u nuc.data.year_conv
            = Except.ok (1 * 1 / su) := by
          rw [timeUnitConv, hs1, hu]
        rw [hconv]
        show Except.ok (npDiv (1 * 1 / su * nuc.data.ln2) nuc.decay_constant) = _
        rw [npDiv, if_neg hne, hln2]
        rw [Except.ok.injEq, FVal.fin.injEq]
        ring

/-- Witness for C1 at H-3 over the sample dataset with the unit `y`. -/
theorem half_life_unit_conversion_witness :
    0 < nucH3.decay_constant ∧ nucH3.data.ln2 = Real.log 2 ∧
      unitSeconds "y" nucH3.data.year_conv = some (365.2422 * 86400) ∧
      (halfLifeOf nucH3 "s" = Except.ok (FVal.fin (Real.log 2 / nucH3.decay_constant)) ∧
        ∃ r, timeUnitConv (Real.log 2 / nucH3.decay_constant) "s" "y"
            nucH3.data.year_conv = Except.ok r ∧
          halfLifeOf nucH3 "y" = Except.ok (FVal.fin r)) := by
  have hpos : 0 < nucH3.decay_constant := by
    show 0 < Real.log 2 / (12.32 * 365.2422 * 86400)
    exact div_pos (Real.log_pos one_lt_two) (by norm_num)
  exact ⟨hpos, rfl, rfl,
    half_life_unit_conversion nucH3 "y" (365.2422 * 86400) hpos rfl rfl⟩

/-- C2: for every `Radionuclide` bound to a stable nuclide (decay
constant zero) and every recognized unit, `half_life` returns positive
infinity (numpy float64 division of the positive numerator by zero),
not NaN and not a finite value. -/
theorem half_life_stable_infinite (nuc : Radionuclide) (u : String) (su : ℝ)
    (hz : nuc.decay_constant = 0)
    (hln2 : nuc.data.ln2 = Real.log 2)
    (hyc : 0 < nuc.data.year_conv)
    (hu : unitSeconds u nuc.data.year_conv = some su) :
    halfLifeOf nuc u = Except.ok FVal.posInf := by
  have hl2 : (0 : ℝ) < Real.log 2 := Real.log_pos one_lt_two
  have hs1 : unitSeconds "s" nuc.data.year_conv = some 1 := rfl
  by_cases hus : u = "s"
  · subst hus
    rw [halfLifeOf, if_pos rfl, hz, npDiv, if_pos rfl,
      if_pos (by rw [one_mul, hln2]; exact hl2)]
  · have hsu : 0 < su := unitSeconds_pos hyc hu
    rw [halfLifeOf, if_neg hus]
    have hconv : timeUnitConv 1 "s" u nuc.data.year_conv
        = Except.ok (1 * 1 / su) := by
      rw [timeUnitConv, hs1, hu]
    rw [hconv]
    show Except.ok (npDiv (1 * 1 / su * nuc.data.ln2) nuc.decay_constant) = _
    rw [hz, npDiv, if_pos rfl, if_pos (by rw [hln2]; positivity)]

/-- Witness for C2 at a stable view over the sample dataset with the
unit `y`. -/
theorem half_life_stable_infinite_witness :
    nucStable.decay_constant = 0 ∧ nucStable.data.ln2 = Real.log 2 ∧
      0 < nucStable.data.year_conv ∧
      unitSeconds "y" nucStable.data.year_conv = some (365.2422 * 86400) ∧
      halfLifeOf nucStable "y" = Except.ok FVal.posInf := by
  have hyc : 0 < nucStable.data.year_conv := by
    show (0 : ℝ) < 365.2422
    norm_num
  exact ⟨rfl, rfl, hyc, rfl,
    half_life_stable_infinite nucStable "y" (365.2422 * 86400) rfl rfl hyc rfl⟩

/-- The contents of a decayed inventory, unfolded. -/
theorem decayInv_contents (A : Inventory) (t : ℝ) (n : String) :
    (decayInv A t).contents n
      = ∑ r in A.keys,
          A.contents r * pathCoeff A.data A.data.radionuclides.length r n t := rfl

/-- C3: decaying an inventory holding a single nuclide with quantity Q
over exactly one half-life of that nuclide yields quantity Q / 2 for
that nuclide, for any dataset in which no nontrivial decay path returns
to the nuclide. -/
theorem single_nuclide_half_life_decay (d : DecayData) (X : String) (Q : ℝ)
    (hl : 0 < decayConstOf d X)
    (hacyc : ∀ s ∈ stepsFrom d d.radionuclides.length X,
      s ≠ [] → terminalOf X s ≠ X) :
    (decayInv (singleInv X Q d) (Real.log 2 / decayConstOf d X)).contents X
      = Q / 2 := by
  have hne : decayConstOf d X ≠ 0 := ne_of_gt hl
  rw [decayInv_contents]
  show ∑ r in {X}, (singleInv X Q d).contents r
      * pathCoeff d d.radionuclides.length r X (Real.log 2 / decayConstOf d X) = Q / 2
  rw [Finset.sum_singleton]
  show (if X = X then Q else 0)
      * pathCoeff d d.radionuclides.length X X (Real.log 2 / decayConstOf d X) = Q / 2
  rw [if_pos rfl, pathCoeff, filter_steps_eq_trivial d d.radionuclides.length X hacyc]
  simp only [List.map_cons, List.map_nil, List.sum_cons, List.sum_nil, add_zero]
  have hlams : lamsOf d X [] = [decayConstOf d X] := rfl
  rw [hlams]
  simp only [List.prod_nil, List.dropLast_single]
  rw [batemanFactor_singleton]
  have hexp : -decayConstOf d X * (Real.log 2 / decayConstOf d X) = -Real.log 2 := by
    field_simp
    ring
  rw [hexp, Real.exp_neg, Real.exp_log (by norm_num : (0 : ℝ) < 2)]
  ring

/-- Witness for C3: the worked H-3 fixture.  In the sample dataset the
H-3 decay constant is ln(2) over 12.32 years, so decaying the inventory
holding 10.0 of H-3 over the seconds value of 12.32 years (one
half-life, as produced by the unit converter) yields 5.0. -/
theorem single_nuclide_half_life_decay_witness :
    0 < decayConstOf icrpSample "H-3" ∧
      (∀ s ∈ stepsFrom icrpSample icrpSample.radionuclides.length "H-3",
        s ≠ [] → terminalOf "H-3" s ≠ "H-3") ∧
      timeUnitConv 12.32 "y" "s" icrpSample.year_conv
        = Except.ok (12.32 * (365.2422 * 86400) / 1) ∧
      Real.log 2 / decayConstOf icrpSample "H-3" = 12.32 * (365.2422 * 86400) / 1 ∧
      (decayInv (singleInv "H-3" 10 icrpSample)
          (Real.log 2 / decayConstOf icrpSample "H-3")).contents "H-3" = 10 / 2 := by
  have hdc : decayConstOf icrpSample "H-3"
      = Real.log 2 / (12.32 * 365.2422 * 86400) := rfl
  have hln : (0 : ℝ) < Real.log 2 := Real.log_pos one_lt_two
  have hpos : 0 < decayConstOf icrpSample "H-3" := by
    rw [hdc]
    exact div_pos hln (by norm_num)
  have hsteps : stepsFrom icrpSample icrpSample.radionuclides.length "H-3"
      = [[]] := rfl
  have hacyc : ∀ s ∈ stepsFrom icrpSample icrpSample.radionuclides.length "H-3",
      s ≠ [] → terminalOf "H-3" s ≠ "H-3" := by
    intro s hs hne
    rw [hsteps, List.mem_singleton] at hs
    exact absurd hs hne
  refine ⟨hpos, hacyc, rfl, ?_, single_nuclide_half_life_decay icrpSample "H-3" 10
    hpos hacyc⟩
  rw [hdc]
  rw [div_div_eq_mul_div, mul_comm, mul_div_assoc, div_self (ne_of_gt hln), mul_one]
  norm_num

/-- C4: decay distributes over inventory addition: for any two
inventories bound to the same decay dataset, the sum succeeds and
decaying the sum equals the sum of the decayed inventories (linearity
of the Bateman solution over inventory addition). -/
theorem decay_additive (A B : Inventory) (t : ℝ) (h : A.data = B.data) :
    ∃ C, addInv A B = some C ∧
      addInv (decayInv A t) (decayInv B t) = some (decayInv C t) := by
  obtain ⟨Ak, Ac, Ad, Az⟩ := A
  obtain ⟨Bk, Bc, Bd, Bz⟩ := B
  simp only at h
  subst h
  refine ⟨⟨Ak ∪ Bk, (fun n => Ac n + Bc n), Ad, ?_⟩, ?_, ?_⟩
  · intro n hn
    rw [Finset.mem_union] at hn
    push_neg at hn
    show Ac n + Bc n = 0
    rw [Az n hn.1, Bz n hn.2, add_zero]
  · rw [addInv, if_pos rfl]
  · have hcond : (decayInv ⟨Ak, Ac, Ad, Az⟩ t).data.dataset
        = (decayInv ⟨Bk, Bc, Ad, Bz⟩ t).data.dataset := rfl
    rw [addInv, if_pos hcond]
    rw [Option.some.injEq]
    refine Inventory.ext_eq ?_ ?_ rfl
    · show (Ak.biUnion fun r => reachSet Ad Ad.radionuclides.length r) ∪
          (Bk.biUnion fun r => reachSet Ad Ad.radionuclides.length r)
        = (Ak ∪ Bk).biUnion fun r => reachSet Ad Ad.radionuclides.length r
      exact (biUnion_union_keys Ak Bk _).symm
    · funext n
      show (∑ r in Ak, Ac r * pathCoeff Ad Ad.radionuclides.length r n t) +
          (∑ r in Bk, Bc r * pathCoeff Ad Ad.radionuclides.length r n t)
        = ∑ r in Ak ∪ Bk, (Ac r + Bc r) * pathCoeff Ad Ad.radionuclides.length r n t
      have hsplit : ∀ r, (Ac r + Bc r) * pathCoeff Ad Ad.radionuclides.length r n t
          = Ac r * pathCoeff Ad Ad.radionuclides.length r n t
            + Bc r * pathCoeff Ad Ad.radionuclides.length r n t := by
        intro r
        ring
      rw [Finset.sum_congr rfl (fun r _ => hsplit r), Finset.sum_add_distrib]
      have hA : ∑ r in Ak, Ac r * pathCoeff Ad Ad.radionuclides.length r n t
          = ∑ r in Ak ∪ Bk, Ac r * pathCoeff Ad Ad.radionuclides.length r n t :=
        Finset.sum_subset Finset.subset_union_left
          (fun x _ hx => by rw [Az x hx, zero_mul])
      have hB : ∑ r in Bk, Bc r * pathCoeff Ad Ad.radionuclides.length r n t
          = ∑ r in Ak ∪ Bk, Bc r * pathCoeff Ad Ad.radionuclides.length r n t :=
        Finset.sum_subset Finset.subset_union_right
          (fun x _ hx => by rw [Bz x hx, zero_mul])
      rw [hA, hB]

/-- Witness for C4: two single-nuclide inventories over the sample
dataset, decayed over one second. -/
theorem decay_additive_witness :
    (singleInv "H-3" 1 icrpSample).data = (singleInv "K-40" 2 icrpSample).data ∧
      ∃ C, addInv (singleInv "H-3" 1 icrpSample) (singleInv "K-40" 2 icrpSample)
          = some C ∧
        addInv (decayInv (singleInv "H-3" 1 icrpSample) 1)
            (decayInv (singleInv "K-40" 2 icrpSample) 1)
          = some (decayInv C 1) :=
  ⟨rfl, decay_additive (singleInv "H-3" 1 icrpSample) (singleInv "K-40" 2 icrpSample)
    1 rfl⟩
